import Mathlib

/-!
Verification of the extraction engine of `apply-llm-changes`.

The development shallowly embeds the TypeScript sources:
 * `src/parser.ts` (current revision): the path validator `isValidPathCandidate`,
   the explicit-block extractor `extractExplicitBlocks` (driven by the two
   regexes `explicitCommentBlockRegex` / `explicitTagBlockRegex`, embedded via a
   small backtracking matcher that mirrors JavaScript regex semantics for
   exactly the constructs those regexes use), and the markdown heuristic
   cascade `extractMarkdownBlocksWithParser`.
 * the parser revision that adds the YAML front-matter strategy (file
   `src/unnamed/part_012` of the snapshot): embedded as `locateFM`.
 * the parser revision with the LLM path oracle (file `src/unnamed/part_010`):
   `determineFilePath` and `extractAllCodeBlocks`.

Strings are modelled as `List Char`; JavaScript `\s`, `trim`, regex
quantifier semantics (greedy / lazy, with backtracking) are reproduced
explicitly.  The external markdown tokenizer (`marked.lexer`) is treated as an
abstract producer of a token list (the spec's DocumentNode interface); the
tokenizer's possible failure is modelled by an `Except` parameter.
-/

set_option maxRecDepth 20000

/-- The backtick character (code 96). -/
def btChar : Char := Char.ofNat 96

/-- The single-quote character (code 39). -/
def sqChar : Char := Char.ofNat 39

/-- JavaScript `\s` (whitespace class used by `trim`, `\s`, `\S`). -/
def isJsWs (c : Char) : Bool :=
  c = ' ' || c = '\t' || c = '\n' || (c.val = 11) || (c.val = 12) || c = '\r' ||
  (c.val = 0xa0) || (c.val = 0x1680) || (0x2000 ≤ c.val && c.val ≤ 0x200a) ||
  (c.val = 0x2028) || (c.val = 0x2029) || (c.val = 0x202f) || (c.val = 0x205f) ||
  (c.val = 0x3000) || (c.val = 0xfeff)

/-- Drop trailing elements satisfying `p` (helper for `jsTrim`). -/
def dropTrailing (p : Char → Bool) (l : List Char) : List Char :=
  (l.reverse.dropWhile p).reverse

/-- JavaScript `String.prototype.trim`. -/
def jsTrim (l : List Char) : List Char :=
  dropTrailing isJsWs (l.dropWhile isJsWs)

/-- `true` iff every char is JavaScript whitespace. -/
def allJsWs (l : List Char) : Bool := l.all isJsWs

/-- `pat` occurs as a contiguous subsequence of `s` (JS `String.includes`). -/
def containsSeq (pat : List Char) : List Char → Bool
  | [] => pat.isPrefixOf []
  | c :: rest => pat.isPrefixOf (c :: rest) || containsSeq pat rest

/-- Index of the first occurrence of `pat` in `s`, if any. -/
def indexOfSeq (pat : List Char) : List Char → Option Nat
  | [] => if pat.isPrefixOf ([] : List Char) then some 0 else none
  | c :: rest =>
      if pat.isPrefixOf (c :: rest) then some 0
      else (indexOfSeq pat rest).map (· + 1)

/-- JS `String.prototype.replace` with a plain-string pattern: replace the
first occurrence only. -/
def replaceFirstSeq (s pat rep : List Char) : List Char :=
  match indexOfSeq pat s with
  | some i => s.take i ++ rep ++ s.drop (i + pat.length)
  | none => s

/-- Split on `\r?\n` (JS `split(/\r?\n/)`); a lone `\r` does not split. -/
def splitLinesRN : List Char → List (List Char)
  | [] => [[]]
  | c :: rest =>
      if c = '\n' then [] :: splitLinesRN rest
      else if c = '\r' && rest.head? = some '\n' then
        match rest with
        | _ :: rest' => [] :: splitLinesRN rest'
        | [] => [[c]]
      else
        match splitLinesRN rest with
        | [] => [[c]]
        | l :: ls => (c :: l) :: ls

/-- First line of a string in the sense of JS `s.split(/\r?\n/, 1)[0]`:
the characters before the first `\n` or `\r\n` (a lone `\r` is kept). -/
def firstLineCh : List Char → List Char
  | [] => []
  | c :: rest =>
      if c = '\n' then []
      else if c = '\r' && rest.head? = some '\n' then []
      else c :: firstLineCh rest

/-- `replace(/^\r?\n/, '')`: drop one leading newline (with optional `\r`). -/
def dropOneLeadingNl (s : List Char) : List Char :=
  match s with
  | '\r' :: '\n' :: rest => rest
  | '\n' :: rest => rest
  | _ => s

/-- Helper for `stripLeadingBlankCh`: the text after the last `\n` inside the
maximal leading whitespace run, or `none` when that run holds no newline. -/
def stripLeadingBlankAux : List Char → Option (List Char)
  | [] => none
  | c :: rest =>
      if ¬ isJsWs c then none
      else
        match stripLeadingBlankAux rest with
        | some r => some r
        | none => if c = '\n' then some rest else none

/-- `replace(/^\s*\r?\n/, '')` (greedy `\s*` with backtracking): removes the
longest whitespace prefix that ends with a newline; a no-op when the leading
whitespace run contains no `\n`. -/
def stripLeadingBlankCh (s : List Char) : List Char :=
  (stripLeadingBlankAux s).getD s

/-- `replace(/\r?\n\s*$/, '')`: remove from the leftmost newline that is
followed only by whitespace (including a `\r` immediately before it). -/
def stripTrailingCh : List Char → List Char
  | [] => []
  | c :: rest =>
      if c = '\n' && allJsWs rest then []
      else if c = '\r' && (match rest with
                           | '\n' :: r2 => allJsWs r2
                           | _ => false) then []
      else c :: stripTrailingCh rest

/--
`isValidPathCandidate` from `src/parser.ts`: structural / safety filter for
relative path candidates.  Mirrors the source checks in order: falsy input,
length bounds on the trimmed string, absolute path (leading `/` or drive
letter), upward traversal (`../` prefix, inner `/../`, inner `\..\`), URL
scheme, required path character, sentence heuristic, invalid characters.
-/
def isValidPathCandidate (candidate : List Char) : Bool :=
  if candidate = [] then false
  else
    let t := jsTrim candidate
    if t = [] || t.length < 3 || 255 < t.length then false
    else if t.head? = some '/' ||
            (match t with
             | a :: b :: c :: _ => a.isAlpha && b = ':' && (c = '\\' || c = '/')
             | _ => false) then false
    else if "../".toList.isPrefixOf t || containsSeq "/../".toList t ||
            containsSeq "\\..\\".toList t then false
    else if "http://".toList.isPrefixOf (t.map Char.toLower) ||
            "https://".toList.isPrefixOf (t.map Char.toLower) ||
            "ftp://".toList.isPrefixOf (t.map Char.toLower) then false
    else if ¬ (t.any fun c => c = '\\' || c = '/' || c = '.') then false
    else if (match t.getLast? with
             | some c => c = '.' || c = ',' || c = ';' || c = '!' || c = '?'
             | none => false) && t.contains ' ' then false
    else if t.any (fun c => c = '<' || c = '>' || c = ':' || c = '"' ||
                            c = '|' || c = '?' || c = '*' || c.val ≤ 0x1f) then false
    else true

/-- Path normalization applied by the markdown stage before insertion:
trim, backslashes to forward slashes, collapse repeated slashes. -/
def collapseSlashes : List Char → List Char
  | [] => []
  | c :: rest =>
      if c = '/' && rest.head? = some '/' then collapseSlashes rest
      else c :: collapseSlashes rest

/-- `path.trim().replace(/\\/g, '/').replace(/\/+/g, '/')`. -/
def normPath (p : List Char) : List Char :=
  collapseSlashes ((jsTrim p).map (fun c => if c = '\\' then '/' else c))

/-!  Pattern matchers for the heuristic strategies of `src/parser.ts`.
Each function mirrors one regex from the source, reproducing JavaScript
greedy/lazy quantifier semantics for the constructs that regex uses. -/

/-- Shared handling of the group-and-suffix part `` `?([^`\s].*?)`?:?$ `` of the
`Heading` and `Explicit Marker` patterns.  `s` is the input already positioned
after `\s*`.  The lazy group grows minimally, so the matched capture is the
remainder minus the longest trailing element of `{"`:", "`", ":", ""}`
(tried in that order, mirroring backtracking order). -/
def pathTailCapture (s0 : List Char) : Option (List Char) :=
  let s := if s0.head? = some btChar then s0.drop 1 else s0
  match s with
  | [] => none
  | h :: rest =>
      if isJsWs h || h = btChar then none
      else
        if rest.length ≥ 2 && [btChar, ':'].isSuffixOf (h :: rest) then
          some ((h :: rest).dropLast.dropLast)
        else if rest.length ≥ 1 &&
                ((h :: rest).getLast? = some btChar || (h :: rest).getLast? = some ':') then
          some ((h :: rest).dropLast)
        else some (h :: rest)

/-- `{ name: "Heading", regex: /^(?:#+\s*(?:File|Path):?)\s*`?([^`\s].*?)`?:?$/ }`. -/
def headingMatch (t : List Char) : Option (List Char) :=
  let hashes := t.takeWhile (· = '#')
  if hashes = [] then none
  else
    let s1 := (t.drop hashes.length).dropWhile isJsWs
    let afterWord : Option (List Char) :=
      if "File".toList.isPrefixOf s1 then some (s1.drop 4)
      else if "Path".toList.isPrefixOf s1 then some (s1.drop 4)
      else none
    match afterWord with
    | none => none
    | some s2 =>
        -- optional ':' is greedy but may backtrack
        (if s2.head? = some ':' then
           pathTailCapture ((s2.drop 1).dropWhile isJsWs)
         else none).orElse
        (fun _ => pathTailCapture (s2.dropWhile isJsWs))

/-- `{ name: "Explicit Marker", regex: /^(?:File|Path):\s*`?([^`\s].*?)`?:?$/ }`. -/
def explicitMarkerMatch (t : List Char) : Option (List Char) :=
  let afterWord : Option (List Char) :=
    if "File:".toList.isPrefixOf t then some (t.drop 5)
    else if "Path:".toList.isPrefixOf t then some (t.drop 5)
    else none
  match afterWord with
  | none => none
  | some s2 => pathTailCapture (s2.dropWhile isJsWs)

/-- Character class `[^\\/\s?*:"<>|]` of the `Standalone Path` pattern. -/
def standaloneSegChar (c : Char) : Bool :=
  ¬ (c = '\\' || c = '/' || isJsWs c || c = '?' || c = '*' || c = ':' ||
     c = '"' || c = '<' || c = '>' || c = '|')

/-- `{ name: "Standalone Path", regex:
`/^[ \t]*((?:[^\\/\s?*:"<>|]+\/)*[^\\/\s?*:"<>|]+\.[A-Za-z0-9_]+)[ \t]*$/` }`:
the whole line is slash-separated nonempty segments of allowed characters,
whose last segment ends in `.`‑extension (word characters after the last dot,
nonempty stem before it). -/
def standalonePathMatch (t : List Char) : Option (List Char) :=
  let core := dropTrailing (fun c => c = ' ' || c = '\t')
                (t.dropWhile (fun c => c = ' ' || c = '\t'))
  let parts := core.splitOn '/'
  if core = [] then none
  else if parts.any (fun p => p = [] || p.any (fun c => ¬ standaloneSegChar c)) then none
  else
    match parts.getLast? with
    | none => none
    | some lp =>
        let r := lp.reverse
        let ext := r.takeWhile (fun c => c.isAlphanum || c = '_')
        if ext = [] then none
        else if (r.drop ext.length).head? ≠ some '.' then none
        else if r.drop (ext.length + 1) = [] then none
        else some core

/-- Atom stepping for `(?:[^`\\]|\\.)+` in the `Inline Backticks` pattern
(no `s` flag: the escaped character may not be a line terminator).
Returns the lengths consumed after one or more atoms, in increasing order. -/
def inlineAtomLens : List Char → List Nat
  | [] => []
  | '\\' :: d :: rest =>
      if d = '\n' || d = '\r' || d.val = 0x2028 || d.val = 0x2029 then []
      else 2 :: (inlineAtomLens rest).map (· + 2)
  | ['\\'] => []
  | c :: rest =>
      if c = btChar then []
      else 1 :: (inlineAtomLens rest).map (· + 1)

/-- Positions reachable from `q` after one or more atoms, increasing order. -/
def inlineAtomPositions (t : List Char) (q : Nat) : List Nat :=
  (inlineAtomLens (t.drop q)).map (q + ·)

/-- One attempt of `` `((?:[^`\\]|\\.)+\.[^`\s/\\]+)` `` at an opening backtick:
`start` is the index of the backtick.  Tries cut positions for the atom-plus in
decreasing (greedy) order; at each cut requires a literal `.`, a nonempty
maximal run of `[^`\s/\\]`, and a closing backtick. -/
def inlineTryAt (t : List Char) (start : Nat) : Option (List Char) :=
  (inlineAtomPositions t (start + 1)).reverse.findSome? fun q =>
    if (t.drop q).head? = some '.' then
      let run := (t.drop (q + 1)).takeWhile
        (fun c => ¬ (c = btChar || isJsWs c || c = '/' || c = '\\'))
      if run = [] then none
      else if (t.drop (q + 1 + run.length)).head? = some btChar then
        some ((t.drop (start + 1)).take (q + 1 + run.length - (start + 1)))
      else none
    else none

/-- `{ name: "Inline Backticks", regex: /`((?:[^`\\]|\\.)+\.[^`\s/\\]+)`/ }`:
unanchored leftmost search. -/
def inlineBackticksMatch (t : List Char) : Option (List Char) :=
  (List.range t.length).findSome? fun i =>
    if (t.drop i).head? = some btChar then inlineTryAt t i else none

/-- `listItemPathRegex = /\*\*\s*`([^`\s](?:[^`]*[^`\s])?)`\s*\*\*/`:
attempt at position `i` (must start with `**`).  The capture group is
followed immediately by the closing backtick, so it must cover the whole
backtick-delimited span; since `[^`\s]` heads the group and `[^`]*[^`\s]`
must end with a non-whitespace character, the span matches exactly when it
is nonempty and neither starts nor ends with whitespace (no trimming:
`` **`a.ts `** `` does not match). -/
def listItemTryAt (t : List Char) (i : Nat) : Option (List Char) :=
  if "**".toList.isPrefixOf (t.drop i) then
    let s1 := (t.drop (i + 2)).dropWhile isJsWs
    if s1.head? = some btChar then
      let run := (s1.drop 1).takeWhile (fun c => c ≠ btChar)
      let after := s1.drop (1 + run.length)
      if after.head? = some btChar then
        if run = [] then none
        else if isJsWs (run.headD ' ') then none
        else if isJsWs (run.getLastD ' ') then none
        else
          let rest := (after.drop 1).dropWhile isJsWs
          if "**".toList.isPrefixOf rest then some run else none
      else none
    else none
  else none

/-- Unanchored leftmost search with `listItemPathRegex`. -/
def listItemRegexSearch (t : List Char) : Option (List Char) :=
  (List.range t.length).findSome? fun i => listItemTryAt t i

/-- `{ name: "Single Line Comment", regex:
`/^\s*(?:\/\/|#)\s*(?:File:\s*)?(\S+)\s*$/` }` applied to the trimmed first
line of a code block. -/
def singleLineCommentMatch (t : List Char) : Option (List Char) :=
  let s1 := t.dropWhile isJsWs
  let afterMarker : Option (List Char) :=
    if "//".toList.isPrefixOf s1 then some (s1.drop 2)
    else if s1.head? = some '#' then some (s1.drop 1)
    else none
  match afterMarker with
  | none => none
  | some r =>
      let s2 := r.dropWhile isJsWs
      let plain : List Char → Option (List Char) := fun s =>
        let run := s.takeWhile (fun c => ¬ isJsWs c)
        if run ≠ [] && allJsWs (s.drop run.length) then some run else none
      (if "File:".toList.isPrefixOf s2 then
         plain ((s2.drop 5).dropWhile isJsWs)
       else none).orElse
      (fun _ => plain s2)

/-- `{ name: "Block Comment Single Line", regex:
`/^\s*\/\*\s*(?:File:\s*)?(\S+)\s*\*\/$/` }`.  The greedy `(\S+)` backtracks
against the closing `*/`. -/
def blockCommentCore (s : List Char) : Option (List Char) :=
  let run := s.takeWhile (fun c => ¬ isJsWs c)
  (List.range run.length).findSome? fun d =>
    let k := run.length - d
    if k = 0 then none
    else
      let u := s.drop k
      if u.dropWhile isJsWs = "*/".toList then some (run.take k) else none

/-- See `blockCommentCore`; adds the `\s*`, `/*` opener and optional `File:`. -/
def blockCommentMatch (t : List Char) : Option (List Char) :=
  let s1 := t.dropWhile isJsWs
  if "/*".toList.isPrefixOf s1 then
    let s2 := (s1.drop 2).dropWhile isJsWs
    (if "File:".toList.isPrefixOf s2 then
       blockCommentCore ((s2.drop 5).dropWhile isJsWs)
     else none).orElse
    (fun _ => blockCommentCore s2)
  else none

/-- `headerCommentPathRegex = /^\s*\/\*([\s\S]*?)\*\//`: the (lazy) body of a
block comment opening the code, i.e. characters before the first `*/`. -/
def headerCommentMatch (code : List Char) : Option (List Char) :=
  let s1 := code.dropWhile isJsWs
  if "/*".toList.isPrefixOf s1 then
    let body := s1.drop 2
    (indexOfSeq "*/".toList body).map fun i => body.take i
  else none

/-- `pathInCommentLineRegex = /^\s*\*\s*(\S+?)\s*$/`: a comment line holding a
single `*`-prefixed token. -/
def pathInCommentLineMatch (line : List Char) : Option (List Char) :=
  let s1 := line.dropWhile isJsWs
  if s1.head? = some '*' then
    let s2 := (s1.drop 1).dropWhile isJsWs
    let run := s2.takeWhile (fun c => ¬ isJsWs c)
    if run ≠ [] && allJsWs (s2.drop run.length) then some run else none
  else none

/-- `yamlFrontMatterPathRegex`, i.e. `^\s*---\s*path:\s*(\S+)\s*---` with the
`s` flag (from the front-matter parser revision): greedy `(\S+)` backtracking
against the closing `---`. -/
def yamlFrontMatterMatch (raw : List Char) : Option (List Char) :=
  let s1 := raw.dropWhile isJsWs
  if "---".toList.isPrefixOf s1 then
    let s2 := (s1.drop 3).dropWhile isJsWs
    if "path:".toList.isPrefixOf s2 then
      let s3 := (s2.drop 5).dropWhile isJsWs
      let run := s3.takeWhile (fun c => ¬ isJsWs c)
      (List.range run.length).findSome? fun d =>
        let k := run.length - d
        if k = 0 then none
        else if "---".toList.isPrefixOf ((s3.drop k).dropWhile isJsWs) then
          some (run.take k)
        else none
    else none
  else none

/-!  Document tokens.  `marked.lexer` is external to the repository; the spec
treats it as an abstract DocumentNode producer, so tokens are modelled as a
variant type carrying the fields the source reads (`type`, `text`, `raw`,
`lang`). -/

/-- Token kinds read by the source (`marked` token `type` strings). -/
inductive TokType where
  | heading | paragraph | text | space | code | listItem | listStart | listEnd
  | html | other
deriving DecidableEq, Repr

/-- A `marked` token as consumed by the source. -/
structure Token where
  type : TokType
  text : List Char
  raw : List Char
  lang : List Char
deriving DecidableEq, Repr

/-- Paragraph token (text = raw). -/
def paraTok (s : String) : Token := ⟨.paragraph, s.toList, s.toList, []⟩

/-- Heading token. -/
def headTok (s : String) : Token := ⟨.heading, s.toList, s.toList, []⟩

/-- Fenced-code token: `text` is the block's content. -/
def codeTok (s : String) : Token := ⟨.code, s.toList, s.toList, []⟩

/-- Blank-line token. -/
def spaceTok : Token := ⟨.space, [], [], []⟩

/-- How the heuristic cascade of `src/parser.ts` found a path (`foundBy`). -/
inductive FoundBy where
  | precedingToken | headerCommentBlock | listItem | firstLineComment
deriving DecidableEq, Repr

/-- File-map entry: content plus the format tag of the source that set it. -/
structure FileData where
  content : List Char
  format : String
deriving DecidableEq, Repr

/-- The `filesToWrite` map (JS `Map`: insertion order, unique keys). -/
def FilesMap := List (List Char × FileData)

instance : DecidableEq FilesMap := by unfold FilesMap; infer_instance

/-- `Map.get`. -/
def lookupA (m : FilesMap) (k : List Char) : Option FileData :=
  match m with
  | [] => none
  | (k', v) :: rest => if k' = k then some v else lookupA rest k

/-- `Map.set`: update in place if the key exists, else append. -/
def setA (m : FilesMap) (k : List Char) (v : FileData) : FilesMap :=
  match m with
  | [] => [(k, v)]
  | (k', v') :: rest => if k' = k then (k, v) :: rest else (k', v') :: setA rest k v

/-- Events logged with `console.warn` during extraction. -/
inductive LogEvent where
  | overwriteExplicitStage (format : String) (path : List Char)
  | explicitParseFailure (format : String)
  | mdOverwriteOther (path : List Char)
  | mdOverwriteMarkdown (path : List Char)
  | couldNotDetermineFilePath
deriving DecidableEq, Repr

/-!  The heuristic strategies (`src/parser.ts`). -/

/-- Try a list of raw regex captures in order: trim each capture and return
the first that validates (`extractPathFrom…` loop bodies). -/
def firstValidCandidate : List (Option (List Char)) → Option (List Char)
  | [] => none
  | o :: rest =>
      match o with
      | some c =>
          let c := jsTrim c
          if isValidPathCandidate c then some c else firstValidCandidate rest
      | none => firstValidCandidate rest

/-- `extractPathFromPrecedingText` (Heading, Inline Backticks, Standalone
Path, Explicit Marker — in `pathPatterns` order). -/
def extractPathFromPrecedingText (text : List Char) : Option (List Char) :=
  if text = [] then none
  else
    let t := jsTrim text
    firstValidCandidate
      [headingMatch t, inlineBackticksMatch t, standalonePathMatch t,
       explicitMarkerMatch t]

/-- `extractPathFromHeaderCommentBlock`: scan the lines of an opening block
comment for one shaped `* <path>`. -/
def extractPathFromHeaderCommentBlock (codeContent : List Char) : Option (List Char) :=
  if codeContent = [] then none
  else
    match headerCommentMatch codeContent with
    | none => none
    | some body =>
        firstValidCandidate ((splitLinesRN body).map pathInCommentLineMatch)

/-- `extractPathFromFirstLineComment`: the first code line as a `//`, `#` or
single-line `/* */` comment (optional `File:` prefix). -/
def extractPathFromFirstLineComment (codeContent : List Char) : Option (List Char) :=
  if codeContent = [] then none
  else
    let fl := firstLineCh codeContent
    if fl = [] then none
    else
      let t := jsTrim fl
      firstValidCandidate [singleLineCommentMatch t, blockCommentMatch t]

/-- Does any first-line-comment pattern match (the truthiness re-check
`firstLineCommentPathPatterns.find(p => firstLine.trim().match(p.regex))`
used before stripping the first line)? -/
def firstLinePatternsAnyMatch (t : List Char) : Bool :=
  (singleLineCommentMatch t).isSome || (blockCommentMatch t).isSome

/-- The nearest preceding non-`space` token of token `i`
(`while (tokens[j]?.type === 'space') j--`). -/
def precedingNonSpace (tokens : List Token) : Nat → Option Token
  | 0 => none
  | j + 1 =>
      match tokens.get? j with
      | some t => if t.type = .space then precedingNonSpace tokens j else some t
      | none => none

/-- `textToSearch`: only heading / paragraph / text tokens contribute text. -/
def textToSearchOf (t : Token) : Option (List Char) :=
  if t.type = .heading || t.type = .paragraph || t.type = .text then some t.text
  else none

/-- Indices scanned by the list-item strategy: `i-1` down to `i-5` (≥ 0). -/
def lookbackIdxs (i : Nat) : List Nat :=
  (List.range 5).filterMap fun k => if k + 1 ≤ i then some (i - (k + 1)) else none

/-- Strategy 3 of `src/parser.ts`: walk backward; stop at the first
`list_item` (match its text against `listItemPathRegex`, validate); skip
`space` / `list_start` / `list_end`; abort on anything else. -/
def listItemLookback (tokens : List Token) : List Nat → Option (List Char)
  | [] => none
  | j :: rest =>
      match tokens.get? j with
      | none => none
      | some t =>
          if t.type = .listItem then
            match listItemRegexSearch t.text with
            | some c =>
                let c := jsTrim c
                if isValidPathCandidate c then some c else none
            | none => none
          else if t.type = .space || t.type = .listStart || t.type = .listEnd then
            listItemLookback tokens rest
          else none

/-- The heuristic cascade of the current `src/parser.ts` (no front-matter
strategy): preceding token, header comment, list item, first-line comment;
first success wins. -/
def locate (tokens : List Token) (i : Nat) : Option (List Char × FoundBy) :=
  let codeContent := ((tokens.get? i).map Token.text).getD []
  let step1 := (precedingNonSpace tokens i).bind fun pt =>
    (textToSearchOf pt).bind extractPathFromPrecedingText
  match step1 with
  | some p => some (p, .precedingToken)
  | none =>
      match extractPathFromHeaderCommentBlock codeContent with
      | some p => some (p, .headerCommentBlock)
      | none =>
          match listItemLookback tokens (lookbackIdxs i) with
          | some p => some (p, .listItem)
          | none =>
              match extractPathFromFirstLineComment codeContent with
              | some p => some (p, .firstLineComment)
              | none => none

/-- Content cleanup applied to every located markdown block:
`replace(/^\s*\r?\n/, '').replace(/\r?\n\s*$/, '')`. -/
def cleanContent (code : List Char) : List Char :=
  stripTrailingCh (stripLeadingBlankCh code)

/-- Processing of one token by the loop body of
`extractMarkdownBlocksWithParser` (current `src/parser.ts`): locate a path
for a code token, normalize it, clean the content (stripping the first line
when it supplied the path), and insert honoring precedence. -/
def mdStep (tokens : List Token) (st : FilesMap × List LogEvent) (i : Nat) :
    FilesMap × List LogEvent :=
  match tokens.get? i with
  | none => st
  | some tok =>
      if tok.type = .code then
        let codeContent := tok.text
        match locate tokens i with
        | some (p, fb) =>
            let normalized := normPath p
            let cleaned0 := cleanContent codeContent
            let cleaned :=
              if fb = .firstLineComment then
                let fl := firstLineCh cleaned0
                if fl ≠ [] && firstLinePatternsAnyMatch (jsTrim fl) then
                  dropOneLeadingNl (cleaned0.drop fl.length)
                else cleaned0
              else cleaned0
            match lookupA st.1 normalized with
            | some existing =>
                if existing.format ≠ "Markdown Block" &&
                   existing.format ≠ "Comment Block" &&
                   existing.format ≠ "Tag Block" then
                  (setA st.1 normalized ⟨cleaned, "Markdown Block"⟩,
                   st.2 ++ [.mdOverwriteOther normalized])
                else if existing.format = "Markdown Block" then
                  (setA st.1 normalized ⟨cleaned, "Markdown Block"⟩,
                   st.2 ++ [.mdOverwriteMarkdown normalized])
                else st
            | none => (setA st.1 normalized ⟨cleaned, "Markdown Block"⟩, st.2)
        | none =>
            if 10 < codeContent.length then
              (st.1, st.2 ++ [.couldNotDetermineFilePath])
            else st
      else st

/-- The token loop of `extractMarkdownBlocksWithParser`. -/
def processTokens (tokens : List Token) (m : FilesMap) (w : List LogEvent) :
    FilesMap × List LogEvent :=
  (List.range tokens.length).foldl (mdStep tokens) (m, w)

/-- `extractMarkdownBlocksWithParser` (current `src/parser.ts`): tokenize the
remainder (`marked.lexer`, modelled as an `Except`-valued input since the
tokenizer is external); on failure log and return leaving the map untouched;
otherwise run the token loop. -/
def extractMarkdownBlocksWithParser (lexed : Except String (List Token))
    (filesToWrite : FilesMap) : FilesMap × List LogEvent :=
  match lexed with
  | .error _ => (filesToWrite, [])
  | .ok tokens => processTokens tokens filesToWrite []

/-!  A small backtracking regex engine covering exactly the constructs of
`explicitCommentBlockRegex` and `explicitTagBlockRegex`: literals, `\s*`,
`\s+`, character set, optional character, alternation of literals, lazy
dot-all capture groups, and backreferences.  First-success order reproduces
JavaScript backtracking (greedy quantifiers try longest first, lazy groups
shortest first). -/

/-- Pattern element. -/
inductive RElem where
  | lit (cs : List Char)
  | wsStar
  | wsPlus
  | chSet (cs : List Char)
  | optChar (c : Char)
  | oneOfLits (ls : List (List Char))
  | lazyStar (g : Nat)
  | backref (g : Nat)

/-- Character comparison, case-insensitive when `ci`. -/
def charEqCI (ci : Bool) (a b : Char) : Bool :=
  if ci then a.toLower = b.toLower else a = b

/-- Prefix test under `charEqCI`. -/
def startsWithCI (ci : Bool) : List Char → List Char → Bool
  | [], _ => true
  | _ :: _, [] => false
  | c :: cs, d :: ds => charEqCI ci c d && startsWithCI ci cs ds

/-- Capture environment (JS groups; an unparticipated group is empty). -/
def Caps := Nat → List Char

/-- Record a capture. -/
def setCap (caps : Caps) (g : Nat) (v : List Char) : Caps :=
  fun n => if n = g then v else caps n

/-- Match a pattern-element list at the start of `s`, returning the unconsumed
tail and captures of the first match in backtracking order. -/
def matchElems (ci : Bool) : List RElem → List Char → Caps →
    Option (List Char × Caps)
  | [], s, caps => some (s, caps)
  | .lit cs :: rest, s, caps =>
      if startsWithCI ci cs s then matchElems ci rest (s.drop cs.length) caps
      else none
  | .wsStar :: rest, s, caps =>
      ((List.range ((s.takeWhile isJsWs).length + 1)).reverse).findSome?
        fun j => matchElems ci rest (s.drop j) caps
  | .wsPlus :: rest, s, caps =>
      (((List.range ((s.takeWhile isJsWs).length + 1)).reverse).filter
        (fun j => 0 < j)).findSome?
        fun j => matchElems ci rest (s.drop j) caps
  | .chSet cs :: rest, s, caps =>
      match s with
      | [] => none
      | c :: s' => if cs.contains c then matchElems ci rest s' caps else none
  | .optChar c :: rest, s, caps =>
      (match s with
       | c' :: s' => if c' = c then matchElems ci rest s' caps else none
       | [] => none).orElse
      (fun _ => matchElems ci rest s caps)
  | .oneOfLits ls :: rest, s, caps =>
      match ls.find? (fun l => startsWithCI ci l s) with
      | some l => matchElems ci rest (s.drop l.length) caps
      | none => none
  | .lazyStar g :: rest, s, caps =>
      (List.range (s.length + 1)).findSome?
        fun k => matchElems ci rest (s.drop k) (setCap caps g (s.take k))
  | .backref g :: rest, s, caps =>
      if startsWithCI ci (caps g) s then
        matchElems ci rest (s.drop (caps g).length) caps
      else none

/-- A regex match of an explicit-block pattern: the full matched text and the
two named groups (`path` = group 1, `content` = group 2). -/
structure XMatch where
  full : List Char
  path : List Char
  content : List Char
deriving DecidableEq, Repr

/-- `String.matchAll` scan with `fuel` (called with `fuel = length + 1`):
try a match at each position; after a nonempty match continue right after it,
otherwise advance one character. -/
def scanAll (ci : Bool) (pat : List RElem) : Nat → List Char → List XMatch
  | 0, _ => []
  | _ + 1, [] => []
  | fuel + 1, s@(_ :: stail) =>
      match matchElems ci pat s (fun _ => []) with
      | some (tail, caps) =>
          let n := s.length - tail.length
          if n = 0 then scanAll ci pat fuel stail
          else ⟨s.take n, caps 1, caps 2⟩ :: scanAll ci pat fuel tail
      | none => scanAll ci pat fuel stail

/-- All matches of an explicit-block pattern in `s`, in order. -/
def scanMatches (ci : Bool) (pat : List RElem) (s : List Char) : List XMatch :=
  scanAll ci pat (s.length + 1) s

/-- `explicitCommentBlockRegex` (flags `gs`):
`\/\*\s*START OF\s*(?<path>.*?)\s*\*\/\r?\n?(?<content>.*?)\r?\n?\/\*\s*END OF\s*\1\s*\*\/`. -/
def commentPat : List RElem :=
  [.lit "/*".toList, .wsStar, .lit "START OF".toList, .wsStar, .lazyStar 1,
   .wsStar, .lit "*/".toList, .optChar '\r', .optChar '\n', .lazyStar 2,
   .optChar '\r', .optChar '\n', .lit "/*".toList, .wsStar,
   .lit "END OF".toList, .wsStar, .backref 1, .wsStar, .lit "*/".toList]

/-- `explicitTagBlockRegex` (flags `gis`):
`<file\s+(?:path|name|filename)\s*=\s*["'](?<path>.*?)["']\s*>\r?\n?(?<content>.*?)\r?\n?<\/file>`. -/
def tagPat : List RElem :=
  [.lit "<file".toList, .wsPlus,
   .oneOfLits ["path".toList, "name".toList, "filename".toList], .wsStar,
   .lit "=".toList, .wsStar, .chSet ['"', sqChar], .lazyStar 1,
   .chSet ['"', sqChar], .wsStar, .lit ">".toList, .optChar '\r',
   .optChar '\n', .lazyStar 2, .optChar '\r', .optChar '\n',
   .lit "</file>".toList]

/-- The placeholder substituted for a processed explicit block. -/
def placeholderFor (formatName : String) (normalizedPath : List Char) : List Char :=
  "\n[LLM_APPLY_Processed ".toList ++ formatName.toList ++ " for ".toList ++
    normalizedPath ++ "]\n".toList

/-- Per-match body of `extractExplicitBlocks`: validate presence of the path,
normalize backslashes, strip one leading newline and the trailing
newline-plus-whitespace from the content, warn on collision, insert, and
replace the matched span in the remaining text by a placeholder. -/
def processExplicitMatch (formatName : String)
    (st : List Char × FilesMap × List LogEvent) (mt : XMatch) :
    List Char × FilesMap × List LogEvent :=
  let filePath := jsTrim mt.path
  if filePath ≠ [] then
    let normalizedPath := filePath.map (fun c => if c = '\\' then '/' else c)
    let content := stripTrailingCh (dropOneLeadingNl mt.content)
    let logs :=
      if (lookupA st.2.1 normalizedPath).isSome then
        st.2.2 ++ [.overwriteExplicitStage formatName normalizedPath]
      else st.2.2
    (replaceFirstSeq st.1 mt.full (placeholderFor formatName normalizedPath),
     setA st.2.1 normalizedPath ⟨content, formatName⟩, logs)
  else
    (st.1, st.2.1, st.2.2 ++ [.explicitParseFailure formatName])

/-- `extractExplicitBlocks` from `src/parser.ts`: scan all matches of the
given explicit-block regex over the input, process each, and return the
remaining text (spans replaced by placeholders) together with the updated map
and warnings. -/
def extractExplicitBlocks (ci : Bool) (pat : List RElem) (formatName : String)
    (input : List Char) (filesToWrite : FilesMap) :
    List Char × FilesMap × List LogEvent :=
  (scanMatches ci pat input).foldl (processExplicitMatch formatName)
    (input, filesToWrite, [])

/-!  The LLM path-oracle parser revision (snapshot file `src/unnamed/part_010`):
`determineFilePath` and `extractAllCodeBlocks`.  The chat-completion transport
is external; its outcome for a given snippet is modelled by `LLMReply`. -/

/-- Outcome of one chat-completion call: a transport/API error (caught by the
source), or a reply whose `choices[0].message.content` may be absent. -/
inductive LLMReply where
  | apiError
  | reply (content : Option (List Char))

/-- `content.replace(/^```[^\n]*\n?/, '')`: strip an opening fence line. -/
def stripOpeningFence (s : List Char) : List Char :=
  if [btChar, btChar, btChar].isPrefixOf s then
    let afterTicks := s.drop 3
    let lineRest := afterTicks.takeWhile (fun c => c ≠ '\n')
    let rest := afterTicks.drop lineRest.length
    if rest.head? = some '\n' then rest.drop 1 else rest
  else s

/-- `content.replace(/\n?```$/, '')`: strip a closing fence (and the newline
right before it, if any). -/
def stripClosingFence (s : List Char) : List Char :=
  if [btChar, btChar, btChar].isSuffixOf s then
    let t := s.dropLast.dropLast.dropLast
    if t.getLast? = some '\n' then t.dropLast else t
  else s

/-- The validity filter `determineFilePath` applies to the cleaned response:
leading `/`, leading `C:`, leading `http:`/`https:`, or any `..` substring. -/
def oracleResponseRejected (c : List Char) : Bool :=
  c.head? = some '/' || "C:".toList.isPrefixOf c || "http:".toList.isPrefixOf c ||
  "https:".toList.isPrefixOf c || containsSeq "..".toList c

/-- `determineFilePath` (`src/unnamed/part_010`): with no initialized client it
throws; a transport error or empty content yields `NO_PATH`; otherwise the
content is stripped of accidental fence wrapping, checked by
`oracleResponseRejected` (coercing to `NO_PATH`), and backslash-normalized. -/
def determineFilePath (clientInitialized : Bool) (r : LLMReply) :
    Except String (List Char) :=
  if ¬ clientInitialized then
    .error "LLM client not initialized. Missing API Key or Base URL."
  else
    match r with
    | .apiError => .ok "NO_PATH".toList
    | .reply rc =>
        match rc with
        | none => .ok "NO_PATH".toList
        | some raw =>
            let content := jsTrim raw
            if content = [] then .ok "NO_PATH".toList
            else
              let content := jsTrim (stripClosingFence (stripOpeningFence content))
              if oracleResponseRejected content then .ok "NO_PATH".toList
              else .ok (content.map (fun c => if c = '\\' then '/' else c))

/-- One token of the loop of `extractAllCodeBlocks` (`src/unnamed/part_010`):
non-code and empty blocks are skipped; an oracle error or `NO_PATH` skips the
block only; otherwise the raw snippet is stored under the returned path. -/
def extractAllCodeBlocksStep (clientInitialized : Bool)
    (llm : List Char → LLMReply) (m : FilesMap) (tok : Token) : FilesMap :=
  if tok.type = .code then
    let snippetRaw := tok.text
    let snippet := jsTrim snippetRaw
    if snippet = [] then m
    else
      match determineFilePath clientInitialized (llm snippet) with
      | .error _ => m
      | .ok fp =>
          if fp = "NO_PATH".toList then m
          else
            setA m fp ⟨snippetRaw,
              "markdown code block (lang: " ++
                (if tok.lang = [] then "unknown" else String.mk tok.lang) ++ ")"⟩
  else m

/-- `extractAllCodeBlocks` (`src/unnamed/part_010`): sequential loop over all
tokens. -/
def extractAllCodeBlocks (clientInitialized : Bool)
    (llm : List Char → LLMReply) (tokens : List Token) : FilesMap :=
  tokens.foldl (extractAllCodeBlocksStep clientInitialized llm) []

/-!  The front-matter parser revision (snapshot file `src/unnamed/part_012`):
its heuristic cascade checks a YAML front-matter block (on the preceding
token's `raw`) before all other strategies. -/

/-- `foundBy` values of the front-matter revision's cascade. -/
inductive FoundByFM where
  | yamlFrontMatter | precedingToken | headerCommentBlock | listItem
  | firstLineComment
deriving DecidableEq, Repr

/-- `extractPathFromYamlFrontMatter` (`src/unnamed/part_012`). -/
def extractPathFromYamlFrontMatter (text : List Char) : Option (List Char) :=
  if text = [] then none
  else
    match yamlFrontMatterMatch text with
    | none => none
    | some c =>
        let c := jsTrim c
        if isValidPathCandidate c then some c else none

/-- `{ name: "Filepath Marker", regex:
`/^\s*(?:\/\/|#)\s*filepath:\s*(\S+)\s*$/` }`, the third first-line pattern
present only in the front-matter revision (`src/unnamed/part_012`). -/
def filepathMarkerMatch (t : List Char) : Option (List Char) :=
  let s1 := t.dropWhile isJsWs
  let afterMarker : Option (List Char) :=
    if "//".toList.isPrefixOf s1 then some (s1.drop 2)
    else if s1.head? = some '#' then some (s1.drop 1)
    else none
  match afterMarker with
  | none => none
  | some r =>
      let s2 := r.dropWhile isJsWs
      if "filepath:".toList.isPrefixOf s2 then
        let s3 := (s2.drop 9).dropWhile isJsWs
        let run := s3.takeWhile (fun c => ¬ isJsWs c)
        if run ≠ [] && allJsWs (s3.drop run.length) then some run else none
      else none

/-- `extractPathFromFirstLineComment` of the front-matter revision
(`src/unnamed/part_012`): the current revision's two first-line patterns plus
the `filepath:` marker pattern. -/
def extractPathFromFirstLineCommentFM (codeContent : List Char) :
    Option (List Char) :=
  if codeContent = [] then none
  else
    let fl := firstLineCh codeContent
    if fl = [] then none
    else
      let t := jsTrim fl
      firstValidCandidate
        [singleLineCommentMatch t, blockCommentMatch t, filepathMarkerMatch t]

/-- Strategies 3–5 of the front-matter revision: header comment and list
item as in the current revision, then its three-pattern first-line check. -/
def locateFMTail (tokens : List Token) (i : Nat) (codeContent : List Char) :
    Option (List Char × FoundByFM) :=
  match extractPathFromHeaderCommentBlock codeContent with
  | some p => some (p, .headerCommentBlock)
  | none =>
      match listItemLookback tokens (lookbackIdxs i) with
      | some p => some (p, .listItem)
      | none =>
          match extractPathFromFirstLineCommentFM codeContent with
          | some p => some (p, .firstLineComment)
          | none => none

/-- The heuristic cascade of the front-matter revision
(`src/unnamed/part_012`): YAML front matter on the preceding token's raw text
first, then the preceding-token patterns, header comment, list item,
first-line comment. -/
def locateFM (tokens : List Token) (i : Nat) : Option (List Char × FoundByFM) :=
  let codeContent := ((tokens.get? i).map Token.text).getD []
  match precedingNonSpace tokens i with
  | some pt =>
      match extractPathFromYamlFrontMatter pt.raw with
      | some p => some (p, .yamlFrontMatter)
      | none =>
          match (textToSearchOf pt).bind extractPathFromPrecedingText with
          | some p => some (p, .precedingToken)
          | none => locateFMTail tokens i codeContent
  | none => locateFMTail tokens i codeContent

/-!  Basic map lemmas. -/

/-- `setA` does not disturb other keys. -/
theorem lookupA_setA_ne (m : FilesMap) (k k' : List Char) (v : FileData)
    (h : k ≠ k') : lookupA (setA m k v) k' = lookupA m k' := by
  induction m with
  | nil => simp [setA, lookupA, h]
  | cons hd tl ih =>
      obtain ⟨k0, v0⟩ := hd
      by_cases hk : k0 = k
      · subst hk
        simp [setA, lookupA, h]
      · simp [setA, lookupA, hk, ih]

/-- One step of the markdown loop never changes an entry recorded by an
explicit stage ("Comment Block" / "Tag Block"). -/
theorem mdStep_preserves_explicit (tokens : List Token)
    (st : FilesMap × List LogEvent) (i : Nat) (p : List Char) (fd : FileData)
    (hfmt : fd.format = "Comment Block" ∨ fd.format = "Tag Block")
    (h : lookupA st.1 p = some fd) :
    lookupA (mdStep tokens st i).1 p = some fd := by
  unfold mdStep
  cases hget : tokens.get? i with
  | none => simpa only [hget] using h
  | some tok =>
      simp only [hget]
      by_cases hcode : tok.type = TokType.code
      · simp only [hcode, if_true]
        cases hloc : locate tokens i with
        | none => simp only [hloc]; split <;> exact h
        | some pr =>
            obtain ⟨q, fb⟩ := pr
            simp only [hloc]
            by_cases hkey : normPath q = p
            · rw [hkey, h]
              rcases hfmt with hf | hf <;> simp [hf, h]
            · cases hex : lookupA st.1 (normPath q) with
              | none =>
                  simp only [hex]
                  simpa [lookupA_setA_ne _ _ _ _ hkey] using h
              | some ex =>
                  simp only [hex]
                  split
                  · simpa [lookupA_setA_ne _ _ _ _ hkey] using h
                  · split
                    · simpa [lookupA_setA_ne _ _ _ _ hkey] using h
                    · exact h
      · simp only [hcode, if_false]
        exact h

/-- The whole markdown token loop preserves explicit entries. -/
theorem processTokens_preserves_explicit (idxs : List Nat)
    (tokens : List Token) (st : FilesMap × List LogEvent)
    (p : List Char) (fd : FileData)
    (hfmt : fd.format = "Comment Block" ∨ fd.format = "Tag Block")
    (h : lookupA st.1 p = some fd) :
    lookupA ((idxs.foldl (mdStep tokens) st)).1 p = some fd := by
  induction idxs generalizing st with
  | nil => exact h
  | cons i rest ih =>
      exact ih (mdStep tokens st i) (mdStep_preserves_explicit tokens st i p fd hfmt h)

/-- C2: the markdown stage never overwrites an explicit-format entry. -/
theorem C2_explicit_precedence (tokens : List Token) (m : FilesMap)
    (p : List Char) (fd : FileData)
    (hfmt : fd.format = "Comment Block" ∨ fd.format = "Tag Block")
    (h : lookupA m p = some fd) :
    lookupA (extractMarkdownBlocksWithParser (.ok tokens) m).1 p = some fd := by
  unfold extractMarkdownBlocksWithParser processTokens
  exact processTokens_preserves_explicit _ tokens (m, []) p fd hfmt h

/-- C2 witness: a tag block and a markdown block both claiming `a/b.ts`; the
final entry is the tag block's. -/
theorem C2_explicit_precedence_witness :
    lookupA (extractMarkdownBlocksWithParser
      (.ok [paraTok "a/b.ts", codeTok "const replaced = true;"])
      (extractExplicitBlocks true tagPat "Tag Block"
        "<file path=\"a/b.ts\">TAG</file>".toList []).2.1).1
      "a/b.ts".toList = some ⟨"TAG".toList, "Tag Block"⟩ :=
  C2_explicit_precedence _ _ _ _ (Or.inr rfl) (by decide)

/-- C9: when tokenizing the remainder fails, the heuristic stage aborts and
the map (holding all explicit-block entries) is returned unchanged. -/
theorem C9_lexer_failure_keeps_explicit_results (e : String) (m : FilesMap) :
    extractMarkdownBlocksWithParser (.error e) m = (m, []) := rfl

/-- C4: when the preceding non-space token's text yields a valid path, the
cascade resolves to it and never consults the header comment inside the code
(which here names a different valid path). -/
theorem C4_preceding_beats_header_comment (tokens : List Token) (i : Nat)
    (tok pt : Token) (p q : List Char)
    (htok : tokens.get? i = some tok) (hcode : tok.type = TokType.code)
    (hpre : precedingNonSpace tokens i = some pt)
    (hpt : pt.type = TokType.paragraph)
    (hpath : extractPathFromPrecedingText pt.text = some p)
    (hq : extractPathFromHeaderCommentBlock tok.text = some q)
    (hne : q ≠ p) :
    locate tokens i = some (p, FoundBy.precedingToken) := by
  unfold locate
  rw [hpre]
  simp [textToSearchOf, hpt, hpath]

/-- C4 witness: a standalone-path paragraph before a code block whose header
comment names a different path resolves to the paragraph path. -/
theorem C4_preceding_beats_header_comment_witness :
    locate [paraTok "src/app.js", codeTok "/*\n * lib/other.ts\n */\nconst x = 1;"] 1 =
      some ("src/app.js".toList, FoundBy.precedingToken) :=
  C4_preceding_beats_header_comment _ 1 _ _ _ ("lib/other.ts".toList) rfl rfl rfl
    rfl (by decide) (by decide) (by decide)

/-- C8: the tag scenario `<file path="data/config.json">{"key":"value"}</file>`
yields exactly that map entry, and the `name` / `filename` attribute spellings
match identically. -/
theorem C8_tag_block_scenario :
    (extractExplicitBlocks true tagPat "Tag Block"
        "<file path=\"data/config.json\">\x7b\"key\":\"value\"\x7d</file>".toList
        []).2.1 =
      [("data/config.json".toList,
        ⟨"\x7b\"key\":\"value\"\x7d".toList, "Tag Block"⟩)] ∧
    (extractExplicitBlocks true tagPat "Tag Block"
        "<file name=\"data/config.json\">\x7b\"key\":\"value\"\x7d</file>".toList
        []).2.1 =
      [("data/config.json".toList,
        ⟨"\x7b\"key\":\"value\"\x7d".toList, "Tag Block"⟩)] ∧
    (extractExplicitBlocks true tagPat "Tag Block"
        "<file filename=\"data/config.json\">\x7b\"key\":\"value\"\x7d</file>".toList
        []).2.1 =
      [("data/config.json".toList,
        ⟨"\x7b\"key\":\"value\"\x7d".toList, "Tag Block"⟩)] := by
  refine ⟨?_, ?_, ?_⟩ <;> decide

/-- The front-matter document of the repository's own test fixture
(`markdown_front_matter_path.md`): a `--- path: <value> ---` block immediately
before a fenced code block. -/
def frontMatterDocTokens : List Token :=
  [paraTok "--- path: packages/api/src/db/sqliteService.ts ---", spaceTok,
   codeTok "import crypto from 'node:crypto';\nconst db = 1;"]

/-- C3: the current `src/parser.ts` cascade has no front-matter strategy — on
the front-matter document it produces no entry and only the could-not-determine
warning — while the front-matter parser revision (`src/unnamed/part_012`,
embedded as `locateFM`) resolves the block to the front-matter value as its
first strategy, as the spec and the repository's own front-matter test expect. -/
theorem C3_front_matter_divergence :
    processTokens frontMatterDocTokens [] [] =
        ([], [LogEvent.couldNotDetermineFilePath]) ∧
      locateFM frontMatterDocTokens 2 =
        some ("packages/api/src/db/sqliteService.ts".toList,
              FoundByFM.yamlFrontMatter) := by
  constructor <;> decide

/-- C6 counterexample: with no initialized client (missing credentials) the
oracle call does not return `NO_PATH` — it raises, exactly as the
initialization warning in the source announces. -/
theorem C6_missing_credentials_counterexample :
    determineFilePath false (LLMReply.reply (some "src/app.ts".toList)) ≠
        Except.ok "NO_PATH".toList ∧
      determineFilePath false (LLMReply.reply (some "src/app.ts".toList)) =
        Except.error "LLM client not initialized. Missing API Key or Base URL." :=
  ⟨fun h => Except.noConfusion h, rfl⟩

/-- C6 (amended): with an initialized client, a transport/API error, an
absent or empty response, or a response failing the source's validity filter
(leading `/`, leading `C:`, leading `http:`/`https:`, or containing `..`)
yields `NO_PATH`; with missing credentials `determineFilePath` throws; and in
every such case the enclosing loop skips that block only, leaving the map
unchanged — the run is never aborted. -/
theorem C6_oracle_failures_isolated :
    (determineFilePath true LLMReply.apiError = .ok "NO_PATH".toList) ∧
    (determineFilePath true (.reply none) = .ok "NO_PATH".toList) ∧
    (∀ raw : List Char, jsTrim raw = [] →
       determineFilePath true (.reply (some raw)) = .ok "NO_PATH".toList) ∧
    (∀ raw : List Char,
       oracleResponseRejected
         (jsTrim (stripClosingFence (stripOpeningFence (jsTrim raw)))) = true →
       determineFilePath true (.reply (some raw)) = .ok "NO_PATH".toList) ∧
    (∀ r : LLMReply, ∃ msg, determineFilePath false r = .error msg) ∧
    (∀ (ci : Bool) (llm : List Char → LLMReply) (m : FilesMap) (tok : Token),
       tok.type = TokType.code →
       ((∃ msg, determineFilePath ci (llm (jsTrim tok.text)) = .error msg) ∨
        determineFilePath ci (llm (jsTrim tok.text)) = .ok "NO_PATH".toList) →
       extractAllCodeBlocksStep ci llm m tok = m) := by
  refine ⟨rfl, rfl, ?_, ?_, ?_, ?_⟩
  · intro raw h
    simp [determineFilePath, h]
  · intro raw h
    by_cases he : jsTrim raw = [] <;> simp [determineFilePath, he, h]
  · intro r
    exact ⟨_, rfl⟩
  · intro ci llm m tok hc hor
    unfold extractAllCodeBlocksStep
    simp only [hc, if_true]
    by_cases hs : jsTrim tok.text = []
    · simp [hs]
    · rcases hor with ⟨msg, he⟩ | he <;> simp [hs, he]

/-- C6 witness: a rejected absolute-path reply coerces to `NO_PATH`, and an
uninitialized-client block is skipped with the map unchanged. -/
theorem C6_oracle_failures_isolated_witness :
    determineFilePath true (.reply (some "/etc/passwd".toList)) =
        .ok "NO_PATH".toList ∧
      extractAllCodeBlocksStep false (fun _ => .reply (some "src/a.ts".toList))
        [] (codeTok "const body = 1;") = [] :=
  ⟨C6_oracle_failures_isolated.2.2.2.1 "/etc/passwd".toList (by decide),
   C6_oracle_failures_isolated.2.2.2.2.2 false _ [] (codeTok "const body = 1;")
     rfl (Or.inl ⟨"LLM client not initialized. Missing API Key or Base URL.", rfl⟩)⟩

/-!  Every heuristic strategy only ever returns a candidate that passed
`isValidPathCandidate`. -/

/-- `firstValidCandidate` only returns validated candidates. -/
theorem firstValidCandidate_valid :
    ∀ (os : List (Option (List Char))) (p : List Char),
      firstValidCandidate os = some p → isValidPathCandidate p = true := by
  intro os
  induction os with
  | nil => intro p h; cases h
  | cons o rest ih =>
      intro p h
      cases o with
      | none => exact ih p h
      | some c =>
          unfold firstValidCandidate at h
          by_cases hv : isValidPathCandidate (jsTrim c) = true
          · simp only [hv, if_true] at h
            cases h
            exact hv
          · simp only [Bool.not_eq_true] at hv
            simp only [hv, Bool.false_eq_true, if_false] at h
            exact ih p h

/-- Strategy 1 validates its result. -/
theorem extractPathFromPrecedingText_valid (t p : List Char)
    (h : extractPathFromPrecedingText t = some p) :
    isValidPathCandidate p = true := by
  unfold extractPathFromPrecedingText at h
  split at h
  · cases h
  · exact firstValidCandidate_valid _ _ h

/-- Strategy 2 validates its result. -/
theorem extractPathFromHeaderCommentBlock_valid (t p : List Char)
    (h : extractPathFromHeaderCommentBlock t = some p) :
    isValidPathCandidate p = true := by
  unfold extractPathFromHeaderCommentBlock at h
  split at h
  · cases h
  · split at h
    · cases h
    · exact firstValidCandidate_valid _ _ h

/-- Strategy 3 validates its result. -/
theorem listItemLookback_valid (tokens : List Token) :
    ∀ (js : List Nat) (p : List Char),
      listItemLookback tokens js = some p → isValidPathCandidate p = true := by
  intro js
  induction js with
  | nil => intro p h; cases h
  | cons j rest ih =>
      intro p h
      unfold listItemLookback at h
      cases hget : tokens.get? j with
      | none => rw [hget] at h; cases h
      | some t =>
          rw [hget] at h
          by_cases hli : t.type = TokType.listItem
          · simp only [hli, if_true] at h
            cases hm : listItemRegexSearch t.text with
            | none => rw [hm] at h; cases h
            | some c =>
                rw [hm] at h
                by_cases hv : isValidPathCandidate (jsTrim c) = true
                · simp only [hv, if_true] at h
                  cases h
                  exact hv
                · simp only [Bool.not_eq_true] at hv
                  simp only [hv, Bool.false_eq_true, if_false] at h
                  cases h
          · simp only [hli, if_false] at h
            split at h
            · exact ih p h
            · cases h

/-- Strategy 4 validates its result. -/
theorem extractPathFromFirstLineComment_valid (t p : List Char)
    (h : extractPathFromFirstLineComment t = some p) :
    isValidPathCandidate p = true := by
  unfold extractPathFromFirstLineComment at h
  split at h
  · cases h
  · dsimp only at h
    split at h
    · cases h
    · exact firstValidCandidate_valid _ _ h

/-- Every path the cascade returns passed `isValidPathCandidate`. -/
theorem locate_valid (tokens : List Token) (i : Nat) (p : List Char)
    (fb : FoundBy) (h : locate tokens i = some (p, fb)) :
    isValidPathCandidate p = true := by
  unfold locate at h
  dsimp only at h
  cases h1 : (precedingNonSpace tokens i).bind
      (fun pt => (textToSearchOf pt).bind extractPathFromPrecedingText) with
  | some q =>
      rw [h1] at h
      cases h
      rcases Option.bind_eq_some.mp h1 with ⟨pt, _, h2⟩
      rcases Option.bind_eq_some.mp h2 with ⟨txt, _, h3⟩
      exact extractPathFromPrecedingText_valid _ _ h3
  | none =>
      rw [h1] at h
      cases h2 : extractPathFromHeaderCommentBlock
          (((tokens.get? i).map Token.text).getD []) with
      | some q =>
          rw [h2] at h
          cases h
          exact extractPathFromHeaderCommentBlock_valid _ _ h2
      | none =>
          rw [h2] at h
          cases h3 : listItemLookback tokens (lookbackIdxs i) with
          | some q =>
              rw [h3] at h
              cases h
              exact listItemLookback_valid tokens _ _ h3
          | none =>
              rw [h3] at h
              cases h4 : extractPathFromFirstLineComment
                  (((tokens.get? i).map Token.text).getD []) with
              | some q =>
                  rw [h4] at h
                  cases h
                  exact extractPathFromFirstLineComment_valid _ _ h4
              | none => rw [h4] at h; cases h

/-- C1 counterexample: an explicit tag block carrying `../../etc/passwd` is
inserted into the map without ever passing the validator (which would reject
it); and the validator itself accepts the `..`-segment candidate `..\x\y.ts`
(backslash traversal), so "contains a `..` segment implies rejected" fails. -/
theorem C1_counterexample :
    lookupA (extractExplicitBlocks true tagPat "Tag Block"
        "<file path=\"../../etc/passwd\">x</file>".toList []).2.1
        "../../etc/passwd".toList = some ⟨"x".toList, "Tag Block"⟩ ∧
      isValidPathCandidate "../../etc/passwd".toList = false ∧
      isValidPathCandidate "..\\x\\y.ts".toList = true := by
  refine ⟨?_, ?_, ?_⟩ <;> decide

/-- C1 (amended): every candidate produced by the markdown heuristic cascade
has passed `isValidPathCandidate`; the validator rejects a leading `/`, a
drive-letter prefix, an `http`/`https`/`ftp` scheme, and `..` traversal
written with forward slashes (`../` prefix or inner `/../`) or as a matched
`\..\`; but explicit-block paths bypass the validator entirely. -/
theorem C1_validation_scope :
    (∀ s : List Char,
       ((jsTrim s).head? = some '/' ∨
        (match jsTrim s with
         | a :: b :: c :: _ => (a.isAlpha && b = ':' && (c = '\\' || c = '/')) = true
         | _ => False) ∨
        "http://".toList.isPrefixOf ((jsTrim s).map Char.toLower) ∨
        "https://".toList.isPrefixOf ((jsTrim s).map Char.toLower) ∨
        "ftp://".toList.isPrefixOf ((jsTrim s).map Char.toLower) ∨
        "../".toList.isPrefixOf (jsTrim s) ∨
        containsSeq "/../".toList (jsTrim s) = true ∨
        containsSeq "\\..\\".toList (jsTrim s) = true) →
       isValidPathCandidate s = false) ∧
    (∀ (tokens : List Token) (i : Nat) (p : List Char) (fb : FoundBy),
       locate tokens i = some (p, fb) → isValidPathCandidate p = true) ∧
    (∃ (input k : List Char) (fd : FileData),
       isValidPathCandidate k = false ∧
       lookupA (extractExplicitBlocks true tagPat "Tag Block" input []).2.1 k =
         some fd) := by
  refine ⟨?_, fun tokens i p fb h => locate_valid tokens i p fb h, ?_⟩
  · intro s hbad
    unfold isValidPathCandidate
    split
    · rfl
    · dsimp only
      split_ifs with h1 h2 h3 h4 h5 h6 h7
      all_goals try rfl
      exfalso
      simp only [Bool.or_eq_true, decide_eq_true_eq, not_or,
        Bool.not_eq_true] at h2 h3 h4
      rcases hbad with hb | hb | hb | hb | hb | hb | hb | hb
      · exact absurd hb h2.1
      · rcases hj : jsTrim s with _ | ⟨a, _ | ⟨b, _ | ⟨c, rest⟩⟩⟩ <;>
          rw [hj] at hb h2 <;> simp_all
      · simp_all
      · simp_all
      · simp_all
      · simp_all
      · simp_all
      · simp_all
  · exact ⟨"<file path=\"../../etc/passwd\">x</file>".toList,
      "../../etc/passwd".toList, ⟨"x".toList, "Tag Block"⟩, by decide, by decide⟩

/-- C1 witness: the validator rejects `../../etc/passwd`, and a heuristic
resolution (standalone-path paragraph) yields a validated candidate. -/
theorem C1_validation_scope_witness :
    isValidPathCandidate "../../etc/passwd".toList = false ∧
      isValidPathCandidate "src/app.js".toList = true :=
  ⟨C1_validation_scope.1 "../../etc/passwd".toList (Or.inr (Or.inr (Or.inr
      (Or.inr (Or.inr (Or.inl (by decide))))))),
   C1_validation_scope.2.1 [paraTok "src/app.js", codeTok "const x = 1;"] 1
      "src/app.js".toList FoundBy.precedingToken (by decide)⟩

/-!  Lemmas about the content-cleaning pipeline, used by the first-line
stripping theorem. -/

/-- `findSome?` success yields a member witness. -/
theorem findSome?_mem {α β : Type} (l : List α) (f : α → Option β) (b : β)
    (h : l.findSome? f = some b) : ∃ a ∈ l, f a = some b := by
  induction l with
  | nil => cases h
  | cons x rest ih =>
      rw [List.findSome?_cons] at h
      cases hx : f x with
      | some y => rw [hx] at h; cases h; exact ⟨x, by simp, hx⟩
      | none =>
          rw [hx] at h
          rcases ih h with ⟨a, ha, hfa⟩
          exact ⟨a, by simp [ha], hfa⟩

/-- Case-sensitive `startsWithCI` decomposes the string. -/
theorem startsWith_false_decomp (cs s : List Char)
    (h : startsWithCI false cs s = true) : s = cs ++ s.drop cs.length := by
  induction cs generalizing s with
  | nil => simp
  | cons c cs ih =>
      cases s with
      | nil => cases h
      | cons d ds =>
          unfold startsWithCI at h
          simp only [Bool.and_eq_true] at h
          have hc : c = d := by
            have := h.1
            unfold charEqCI at this
            simpa using this
          subst hc
          simpa using ih ds h.2

/-- A prefix of the whitespace run is all whitespace. -/
theorem allJsWs_take_of_le (s : List Char) (j : Nat)
    (h : j ≤ (s.takeWhile isJsWs).length) : allJsWs (s.take j) = true := by
  induction s generalizing j with
  | nil => simp [allJsWs]
  | cons c rest ih =>
      cases j with
      | zero => simp [allJsWs]
      | succ j =>
          by_cases hws : isJsWs c
          · rw [List.takeWhile_cons, if_pos hws] at h
            simp only [List.length_cons, Nat.succ_le_succ_iff] at h
            simp only [List.take_succ_cons, allJsWs, List.all_cons, hws,
              Bool.true_and]
            exact ih j h
          · rw [List.takeWhile_cons, if_neg hws] at h
            simp at h

/-- Inversion: literal element. -/
theorem matchElems_lit_inv (ci : Bool) (cs : List Char) (rest : List RElem)
    (s : List Char) (caps : Caps) (out : List Char × Caps)
    (h : matchElems ci (.lit cs :: rest) s caps = some out) :
    startsWithCI ci cs s = true ∧
      matchElems ci rest (s.drop cs.length) caps = some out := by
  unfold matchElems at h
  split at h
  · exact ⟨by assumption, h⟩
  · cases h

/-- Inversion: `\s*`. -/
theorem matchElems_wsStar_inv (ci : Bool) (rest : List RElem) (s : List Char)
    (caps : Caps) (out : List Char × Caps)
    (h : matchElems ci (.wsStar :: rest) s caps = some out) :
    ∃ j, allJsWs (s.take j) = true ∧
      matchElems ci rest (s.drop j) caps = some out := by
  unfold matchElems at h
  rcases findSome?_mem _ _ _ h with ⟨j, hj, hfj⟩
  refine ⟨j, allJsWs_take_of_le s j ?_, hfj⟩
  rw [List.mem_reverse, List.mem_range] at hj
  omega

/-- Inversion: lazy capture group. -/
theorem matchElems_lazyStar_inv (ci : Bool) (g : Nat) (rest : List RElem)
    (s : List Char) (caps : Caps) (out : List Char × Caps)
    (h : matchElems ci (.lazyStar g :: rest) s caps = some out) :
    ∃ k, matchElems ci rest (s.drop k) (setCap caps g (s.take k)) = some out := by
  unfold matchElems at h
  rcases findSome?_mem _ _ _ h with ⟨k, _, hfk⟩
  exact ⟨k, hfk⟩

/-- Inversion: backreference. -/
theorem matchElems_backref_inv (ci : Bool) (g : Nat) (rest : List RElem)
    (s : List Char) (caps : Caps) (out : List Char × Caps)
    (h : matchElems ci (.backref g :: rest) s caps = some out) :
    startsWithCI ci (caps g) s = true ∧
      matchElems ci rest (s.drop (caps g).length) caps = some out := by
  unfold matchElems at h
  split at h
  · exact ⟨by assumption, h⟩
  · cases h

/-- Inversion: optional character. -/
theorem matchElems_optChar_inv (ci : Bool) (c : Char) (rest : List RElem)
    (s : List Char) (caps : Caps) (out : List Char × Caps)
    (h : matchElems ci (.optChar c :: rest) s caps = some out) :
    (s.head? = some c ∧ matchElems ci rest (s.drop 1) caps = some out) ∨
      matchElems ci rest s caps = some out := by
  unfold matchElems at h
  cases s with
  | nil =>
      right
      simpa [Option.orElse] using h
  | cons d s' =>
      by_cases hd : d = c
      · subst hd
        simp only [if_true] at h
        rcases hx : matchElems ci rest s' caps with _ | v
        · rw [hx] at h
          right
          simpa [Option.orElse] using h
        · rw [hx] at h
          simp only [Option.orElse] at h
          left
          exact ⟨rfl, by simpa [hx] using h⟩
      · simp only [hd, if_false] at h
        right
        simpa [Option.orElse] using h

/-- A newline fragment matched by `\r?\n?`. -/
def OptNl (nl : List Char) : Prop :=
  nl = [] ∨ nl = ['\r'] ∨ nl = ['\n'] ∨ nl = ['\r', '\n']

/-- Inversion: the `\r?\n?` pair of the explicit-block regexes. -/
theorem matchElems_optPair_inv (ci : Bool) (rest : List RElem) (s : List Char)
    (caps : Caps) (out : List Char × Caps)
    (h : matchElems ci (.optChar '\r' :: .optChar '\n' :: rest) s caps = some out) :
    ∃ nl, OptNl nl ∧ s = nl ++ s.drop nl.length ∧
      matchElems ci rest (s.drop nl.length) caps = some out := by
  rcases matchElems_optChar_inv ci '\r' _ s caps out h with ⟨hh, h1⟩ | h1
  · rcases matchElems_optChar_inv ci '\n' rest (s.drop 1) caps out h1 with
      ⟨hh2, h2⟩ | h2
    · refine ⟨['\r', '\n'], Or.inr (Or.inr (Or.inr rfl)), ?_, ?_⟩
      · cases s with
        | nil => cases hh
        | cons a t =>
            cases t with
            | nil => simp at hh2
            | cons b u =>
                simp only [List.drop_succ_cons, List.drop_zero,
                  List.head?_cons, Option.some.injEq] at hh hh2
                simp [hh, hh2]
      · simpa using h2
    · refine ⟨['\r'], Or.inr (Or.inl rfl), ?_, ?_⟩
      · cases s with
        | nil => cases hh
        | cons a t =>
            simp only [List.head?_cons, Option.some.injEq] at hh
            simp [hh]
      · simpa using h2
  · rcases matchElems_optChar_inv ci '\n' rest s caps out h1 with ⟨hh2, h2⟩ | h2
    · refine ⟨['\n'], Or.inr (Or.inr (Or.inl rfl)), ?_, ?_⟩
      · cases s with
        | nil => cases hh2
        | cons a t =>
            simp only [List.head?_cons, Option.some.injEq] at hh2
            simp [hh2]
      · simpa using h2
    · exact ⟨[], Or.inl rfl, by simp, by simpa using h2⟩

/-- Captures at other indices are untouched. -/
theorem setCap_ne (caps : Caps) (g g' : Nat) (v : List Char) (h : g' ≠ g) :
    setCap caps g v g' = caps g' := by
  simp [setCap, h]

/-- Reading back the recorded capture. -/
theorem setCap_self (caps : Caps) (g : Nat) (v : List Char) :
    setCap caps g v g = v := by
  simp [setCap]

/-- Decomposition of any match of the comment-block pattern: because of the
backreference, the path named in the end marker is the same string `p` that
the start marker captured. -/
theorem commentPat_match_decomp (s tail : List Char) (caps : Caps)
    (h : matchElems false commentPat s (fun _ => []) = some (tail, caps)) :
    ∃ w1 w2 p w3 nl1 c nl2 w4 w5 w6 : List Char,
      allJsWs w1 = true ∧ allJsWs w2 = true ∧ allJsWs w3 = true ∧
      allJsWs w4 = true ∧ allJsWs w5 = true ∧ allJsWs w6 = true ∧
      OptNl nl1 ∧ OptNl nl2 ∧ caps 1 = p ∧ caps 2 = c ∧
      s = "/*".toList ++ w1 ++ "START OF".toList ++ w2 ++ p ++ w3 ++
          "*/".toList ++ nl1 ++ c ++ nl2 ++ "/*".toList ++ w4 ++
          "END OF".toList ++ w5 ++ p ++ w6 ++ "*/".toList ++ tail := by
  unfold commentPat at h
  obtain ⟨hL1, h⟩ := matchElems_lit_inv _ _ _ _ _ _ h
  have e1 := startsWith_false_decomp _ _ hL1
  obtain ⟨j1, hw1, h⟩ := matchElems_wsStar_inv _ _ _ _ _ h
  have e2 := (List.take_append_drop j1 (s.drop ("/*".toList).length)).symm
  obtain ⟨hL2, h⟩ := matchElems_lit_inv _ _ _ _ _ _ h
  have e3 := startsWith_false_decomp _ _ hL2
  obtain ⟨j2, hw2, h⟩ := matchElems_wsStar_inv _ _ _ _ _ h
  have e4 := (List.take_append_drop j2
    (((s.drop ("/*".toList).length).drop j1).drop ("START OF".toList).length)).symm
  obtain ⟨k1, h⟩ := matchElems_lazyStar_inv _ _ _ _ _ _ h
  have e5 := (List.take_append_drop k1
    ((((s.drop ("/*".toList).length).drop j1).drop
      ("START OF".toList).length).drop j2)).symm
  obtain ⟨j3, hw3, h⟩ := matchElems_wsStar_inv _ _ _ _ _ h
  have e6 := (List.take_append_drop j3
    (((((s.drop ("/*".toList).length).drop j1).drop
      ("START OF".toList).length).drop j2).drop k1)).symm
  obtain ⟨hL3, h⟩ := matchElems_lit_inv _ _ _ _ _ _ h
  have e7 := startsWith_false_decomp _ _ hL3
  obtain ⟨nl1, hnl1, e8, h⟩ := matchElems_optPair_inv _ _ _ _ _ h
  obtain ⟨k2, h⟩ := matchElems_lazyStar_inv _ _ _ _ _ _ h
  generalize hS8 : ((((((((s.drop ("/*".toList).length).drop j1).drop
      ("START OF".toList).length).drop j2).drop k1).drop j3).drop
      ("*/".toList).length).drop nl1.length) = s8 at h e8 ⊢
  have e9 := (List.take_append_drop k2 s8).symm
  obtain ⟨nl2, hnl2, e10, h⟩ := matchElems_optPair_inv _ _ _ _ _ h
  obtain ⟨hL4, h⟩ := matchElems_lit_inv _ _ _ _ _ _ h
  have e11 := startsWith_false_decomp _ _ hL4
  obtain ⟨j4, hw4, h⟩ := matchElems_wsStar_inv _ _ _ _ _ h
  have e12 := (List.take_append_drop j4
    ((((s8.drop k2).drop nl2.length).drop ("/*".toList).length))).symm
  obtain ⟨hL5, h⟩ := matchElems_lit_inv _ _ _ _ _ _ h
  have e13 := startsWith_false_decomp _ _ hL5
  obtain ⟨j5, hw5, h⟩ := matchElems_wsStar_inv _ _ _ _ _ h
  have e14 := (List.take_append_drop j5
    ((((((s8.drop k2).drop nl2.length).drop ("/*".toList).length).drop
      j4).drop ("END OF".toList).length))).symm
  obtain ⟨hB, h⟩ := matchElems_backref_inv _ _ _ _ _ _ h
  have hcap1 : (setCap (setCap (fun _ => ([] : List Char)) 1
      (((((s.drop ("/*".toList).length).drop j1).drop
        ("START OF".toList).length).drop j2).take k1)) 2 (s8.take k2)) 1 =
      ((((s.drop ("/*".toList).length).drop j1).drop
        ("START OF".toList).length).drop j2).take k1 := by
    rw [setCap_ne _ _ _ _ (by decide), setCap_self]
  rw [hcap1] at hB h
  have e15 := startsWith_false_decomp _ _ hB
  obtain ⟨j6, hw6, h⟩ := matchElems_wsStar_inv _ _ _ _ _ h
  have e16 := (List.take_append_drop j6
    (((((((s8.drop k2).drop nl2.length).drop ("/*".toList).length).drop
      j4).drop ("END OF".toList).length).drop j5).drop
      (((((s.drop ("/*".toList).length).drop j1).drop
        ("START OF".toList).length).drop j2).take k1).length)).symm
  obtain ⟨hL6, h⟩ := matchElems_lit_inv _ _ _ _ _ _ h
  have e17 := startsWith_false_decomp _ _ hL6
  unfold matchElems at h
  injection h with h
  injection h with hTail hCaps
  refine ⟨(s.drop ("/*".toList).length).take j1,
    (((s.drop ("/*".toList).length).drop j1).drop
      ("START OF".toList).length).take j2,
    ((((s.drop ("/*".toList).length).drop j1).drop
      ("START OF".toList).length).drop j2).take k1,
    (((((s.drop ("/*".toList).length).drop j1).drop
      ("START OF".toList).length).drop j2).drop k1).take j3,
    nl1, s8.take k2, nl2,
    ((((s8.drop k2).drop nl2.length).drop ("/*".toList).length)).take j4,
    ((((((s8.drop k2).drop nl2.length).drop ("/*".toList).length).drop
      j4).drop ("END OF".toList).length)).take j5,
    (((((((s8.drop k2).drop nl2.length).drop ("/*".toList).length).drop
      j4).drop ("END OF".toList).length).drop j5).drop
      (((((s.drop ("/*".toList).length).drop j1).drop
        ("START OF".toList).length).drop j2).take k1).length).take j6,
    hw1, hw2, hw3, hw4, hw5, hw6, hnl1, hnl2, ?_, ?_, ?_⟩
  · rw [← hCaps, hcap1]
  · rw [← hCaps, setCap_self]
  · rw [← hTail]
    conv_lhs => rw [e1, e2, e3, e4, e5, e6, e7, e8, e9, e10, e11, e12, e13,
      e14, e15, e16, e17]
    simp only [List.append_assoc]

/-- The engine only ever leaves a suffix of its input unconsumed. -/
theorem matchElems_rest_drop (ci : Bool) (pat : List RElem) :
    ∀ (s : List Char) (caps : Caps) (t : List Char) (cs : Caps),
      matchElems ci pat s caps = some (t, cs) → ∃ n, t = s.drop n := by
  induction pat with
  | nil =>
      intro s caps t cs h
      unfold matchElems at h
      injection h with h
      exact ⟨0, by rw [List.drop_zero]; exact (congrArg Prod.fst h).symm⟩
  | cons e rest ih =>
      intro s caps t cs h
      cases e with
      | lit csl =>
          obtain ⟨_, h⟩ := matchElems_lit_inv _ _ _ _ _ _ h
          rcases ih _ _ _ _ h with ⟨n, hn⟩
          exact ⟨n + csl.length, by rw [hn, List.drop_drop, Nat.add_comm]⟩
      | wsStar =>
          obtain ⟨j, _, h⟩ := matchElems_wsStar_inv _ _ _ _ _ h
          rcases ih _ _ _ _ h with ⟨n, hn⟩
          exact ⟨n + j, by rw [hn, List.drop_drop, Nat.add_comm]⟩
      | wsPlus =>
          unfold matchElems at h
          rcases findSome?_mem _ _ _ h with ⟨j, _, hf⟩
          rcases ih _ _ _ _ hf with ⟨n, hn⟩
          exact ⟨n + j, by rw [hn, List.drop_drop, Nat.add_comm]⟩
      | chSet cls =>
          cases s with
          | nil => unfold matchElems at h; cases h
          | cons a s' =>
              unfold matchElems at h
              dsimp only at h
              split at h
              · rcases ih _ _ _ _ h with ⟨n, hn⟩
                exact ⟨n + 1, by rw [hn]; rfl⟩
              · cases h
      | optChar c =>
          rcases matchElems_optChar_inv _ _ _ _ _ _ h with ⟨_, h⟩ | h
          · rcases ih _ _ _ _ h with ⟨n, hn⟩
            exact ⟨n + 1, by rw [hn, List.drop_drop, Nat.add_comm]⟩
          · exact ih _ _ _ _ h
      | oneOfLits ls =>
          unfold matchElems at h
          cases hf : ls.find? (fun l => startsWithCI ci l s) with
          | none => rw [hf] at h; cases h
          | some l =>
              rw [hf] at h
              rcases ih _ _ _ _ h with ⟨n, hn⟩
              exact ⟨n + l.length, by rw [hn, List.drop_drop, Nat.add_comm]⟩
      | lazyStar g =>
          obtain ⟨k, h⟩ := matchElems_lazyStar_inv _ _ _ _ _ _ h
          rcases ih _ _ _ _ h with ⟨n, hn⟩
          exact ⟨n + k, by rw [hn, List.drop_drop, Nat.add_comm]⟩
      | backref g =>
          obtain ⟨_, h⟩ := matchElems_backref_inv _ _ _ _ _ _ h
          rcases ih _ _ _ _ h with ⟨n, hn⟩
          exact ⟨n + (caps g).length, by rw [hn, List.drop_drop, Nat.add_comm]⟩

/-- Splitting the input at a successful match: the unconsumed rest is a
suffix and the consumed part is the corresponding `take`. -/
theorem split_of_match (suf tail : List Char)
    (hdrop : ∃ n, tail = suf.drop n) :
    suf = suf.take (suf.length - tail.length) ++ tail := by
  rcases hdrop with ⟨n, hn⟩
  rcases Nat.le_total n suf.length with hle | hle
  · have hlen : tail.length = suf.length - n := by rw [hn, List.length_drop]
    have : suf.length - tail.length = n := by omega
    rw [this, hn, List.take_append_drop]
  · have htail : tail = [] := by
      rw [hn, List.drop_eq_nil_of_le hle]
    subst htail
    simp

/-- Every recorded match of the global scan comes from an engine match on a
suffix of the input. -/
theorem scanAll_mem (ci : Bool) (pat : List RElem) :
    ∀ (fuel : Nat) (s : List Char) (mt : XMatch), mt ∈ scanAll ci pat fuel s →
      ∃ pre suf tail caps, s = pre ++ suf ∧
        matchElems ci pat suf (fun _ => []) = some (tail, caps) ∧
        mt = ⟨suf.take (suf.length - tail.length), caps 1, caps 2⟩ := by
  intro fuel
  induction fuel with
  | zero => intro s mt h; cases h
  | succ fuel ih =>
      intro s mt h
      cases s with
      | nil => cases h
      | cons a stail =>
          unfold scanAll at h
          cases hm : matchElems ci pat (a :: stail) (fun _ => []) with
          | none =>
              rw [hm] at h
              rcases ih stail mt h with ⟨pre, suf, tail, caps, hsp, hmt, hm2⟩
              exact ⟨a :: pre, suf, tail, caps, by simp [hsp], hmt, hm2⟩
          | some out =>
              obtain ⟨tl, caps⟩ := out
              rw [hm] at h
              dsimp only at h
              by_cases hn : (a :: stail).length - tl.length = 0
              · rw [if_pos hn] at h
                rcases ih stail mt h with ⟨pre, suf, tail, caps2, hsp, hmt, hm2⟩
                exact ⟨a :: pre, suf, tail, caps2, by simp [hsp], hmt, hm2⟩
              · rw [if_neg hn] at h
                rcases List.mem_cons.mp h with hhd | htl
                · exact ⟨[], a :: stail, tl, caps, rfl, hm, hhd⟩
                · have hsuffix := matchElems_rest_drop ci pat _ _ _ _ hm
                  have hsplit := split_of_match _ _ hsuffix
                  rcases ih tl mt htl with ⟨pre, suf, tail, caps2, hsp, hmt, hm2⟩
                  exact ⟨(a :: stail).take ((a :: stail).length - tl.length) ++ pre,
                    suf, tail, caps2,
                    by rw [List.append_assoc, ← hsp, ← hsplit], hmt, hm2⟩

/-- Keys of the explicit-block result map come from scanned matches (or were
already present). -/
theorem extractExplicit_keys (fmt : String) :
    ∀ (ms : List XMatch) (st : List Char × FilesMap × List LogEvent)
      (k : List Char) (fd : FileData),
      lookupA (ms.foldl (processExplicitMatch fmt) st).2.1 k = some fd →
      lookupA st.2.1 k = some fd ∨
        ∃ mt ∈ ms,
          k = (jsTrim mt.path).map (fun ch => if ch = '\\' then '/' else ch) := by
  intro ms
  induction ms with
  | nil => intro st k fd h; exact Or.inl h
  | cons mt rest ih =>
      intro st k fd h
      rw [List.foldl_cons] at h
      rcases ih _ k fd h with hbase | ⟨mt2, hmem, hk⟩
      · unfold processExplicitMatch at hbase
        dsimp only at hbase
        split at hbase
        · by_cases hkey :
            (jsTrim mt.path).map (fun ch => if ch = '\\' then '/' else ch) = k
          · exact Or.inr ⟨mt, by simp, hkey.symm⟩
          · rw [lookupA_setA_ne _ _ _ _ hkey] at hbase
            exact Or.inl hbase
        · exact Or.inl hbase
      · exact Or.inr ⟨mt2, by simp [hmem], hk⟩

/-- C7: (i) every entry the comment-block extractor produces comes from a
span in which the end marker `END OF <path>` carries the very same path
string captured by the start marker (the regex backreference); (ii) a
start/end path mismatch produces no match and no entry at all. -/
theorem C7_comment_end_marker_names_start_path :
    (∀ (input k : List Char) (fd : FileData),
       lookupA (extractExplicitBlocks false commentPat "Comment Block" input
           []).2.1 k = some fd →
       ∃ pre w1 w2 p w3 nl1 c nl2 w4 w5 w6 tail : List Char,
         k = (jsTrim p).map (fun ch => if ch = '\\' then '/' else ch) ∧
         allJsWs w1 = true ∧ allJsWs w2 = true ∧ allJsWs w3 = true ∧
         allJsWs w4 = true ∧ allJsWs w5 = true ∧ allJsWs w6 = true ∧
         OptNl nl1 ∧ OptNl nl2 ∧
         input = pre ++ "/*".toList ++ w1 ++ "START OF".toList ++ w2 ++ p ++
           w3 ++ "*/".toList ++ nl1 ++ c ++ nl2 ++ "/*".toList ++ w4 ++
           "END OF".toList ++ w5 ++ p ++ w6 ++ "*/".toList ++ tail) ∧
    (extractExplicitBlocks false commentPat "Comment Block"
        "/* START OF a.ts */\nx\n/* END OF b.md */".toList []).2.1 = [] := by
  constructor
  · intro input k fd h
    unfold extractExplicitBlocks at h
    rcases extractExplicit_keys _ _ _ _ _ h with hbase | ⟨mt, hmem, hk⟩
    · simp [lookupA] at hbase
    · unfold scanMatches at hmem
      rcases scanAll_mem false commentPat _ _ _ hmem with
        ⟨pre, suf, tail0, caps, hsp, hmatch, hmt⟩
      rcases commentPat_match_decomp _ _ _ hmatch with
        ⟨w1, w2, p, w3, nl1, c, nl2, w4, w5, w6, hw1, hw2, hw3, hw4, hw5,
         hw6, hn1, hn2, hc1, hc2, hseq⟩
      refine ⟨pre, w1, w2, p, w3, nl1, c, nl2, w4, w5, w6, tail0, ?_, hw1,
        hw2, hw3, hw4, hw5, hw6, hn1, hn2, ?_⟩
      · rw [hk, hmt]
        simp only
        rw [hc1]
      · rw [hsp, hseq]
        simp only [List.append_assoc]
  · decide

/-- C7 witness: on a well-formed comment block the produced entry indeed
decomposes with the same path in both markers. -/
theorem C7_comment_end_marker_names_start_path_witness :
    ∃ pre w1 w2 p w3 nl1 c nl2 w4 w5 w6 tail : List Char,
      "a.ts".toList = (jsTrim p).map (fun ch => if ch = '\\' then '/' else ch) ∧
      allJsWs w1 = true ∧ allJsWs w2 = true ∧ allJsWs w3 = true ∧
      allJsWs w4 = true ∧ allJsWs w5 = true ∧ allJsWs w6 = true ∧
      OptNl nl1 ∧ OptNl nl2 ∧
      "/* START OF a.ts */\nbody\n/* END OF a.ts */".toList =
        pre ++ "/*".toList ++ w1 ++ "START OF".toList ++ w2 ++ p ++ w3 ++
        "*/".toList ++ nl1 ++ c ++ nl2 ++ "/*".toList ++ w4 ++
        "END OF".toList ++ w5 ++ p ++ w6 ++ "*/".toList ++ tail :=
  C7_comment_end_marker_names_start_path.1
    "/* START OF a.ts */\nbody\n/* END OF a.ts */".toList "a.ts".toList
    ⟨"body".toList, "Comment Block"⟩ (by decide)
